import Mathlib

/-!
Formal model of the `Image_to_pdf` repository
(`src/image_to_pdf/converter.py`, class `ImageToPDFConverter`).

The Python code is shallowly embedded: pure fragments become Lean
functions, filesystem access is abstracted into an explicit
`FileSystem` record of query functions, and fallible Python code
(exceptions) is modelled with `Except`/`Option`.  Paths are modelled
after `pathlib.PurePosixPath`: a path is its parsed parts, and
`suffix` / `with_suffix` / `parent` follow the CPython implementation.
External collaborators (the PIL image codec and PDF writer, Python's
builtin `sorted`) are modelled from their documented contracts, each
marked in its doc comment.
-/

namespace ImageToPDF

/-! ### Python string ordering

Python compares strings lexicographically by Unicode code point.
`lexLe` is that order on the character lists underlying strings. -/

def lexLe : List Char → List Char → Bool
  | [], _ => true
  | _ :: _, [] => false
  | a :: as, b :: bs =>
      if a.toNat < b.toNat then true
      else if b.toNat < a.toNat then false
      else lexLe as bs

/-- The Python `<=` order on strings, as a proposition. -/
def pyLe (a b : String) : Prop := lexLe a.toList b.toList = true

instance : DecidableRel pyLe := fun a b => by unfold pyLe; infer_instance

theorem lexLe_total : ∀ as bs, lexLe as bs = true ∨ lexLe bs as = true := by
  intro as
  induction as with
  | nil => intro bs; left; rfl
  | cons a as ih =>
    intro bs
    cases bs with
    | nil => right; rfl
    | cons b bs =>
      by_cases h1 : a.toNat < b.toNat
      · left; simp [lexLe, h1]
      · by_cases h2 : b.toNat < a.toNat
        · right; simp [lexLe, h1, h2]
        · rcases ih bs with h | h
          · left; simp [lexLe, h1, h2, h]
          · right; simp [lexLe, h1, h2, h]

theorem lexLe_trans :
    ∀ as bs cs, lexLe as bs = true → lexLe bs cs = true → lexLe as cs = true := by
  intro as
  induction as with
  | nil => intro bs cs _ _; rfl
  | cons a as ih =>
    intro bs cs h1 h2
    cases bs with
    | nil => simp [lexLe] at h1
    | cons b bs =>
      cases cs with
      | nil => simp [lexLe] at h2
      | cons c cs =>
        simp only [lexLe] at h1 h2 ⊢
        by_cases hab : a.toNat < b.toNat <;> by_cases hbc : b.toNat < c.toNat
        · simp [hab.trans hbc]
        · rw [if_neg hbc] at h2
          by_cases hcb : c.toNat < b.toNat
          · rw [if_pos hcb] at h2; exact absurd h2 (by simp)
          · have e : b.toNat = c.toNat := le_antisymm (le_of_not_lt hcb) (le_of_not_lt hbc)
            rw [if_pos (e ▸ hab)]
        · rw [if_neg hab] at h1
          by_cases hba : b.toNat < a.toNat
          · rw [if_pos hba] at h1; exact absurd h1 (by simp)
          · have e : a.toNat = b.toNat := le_antisymm (le_of_not_lt hba) (le_of_not_lt hab)
            rw [if_pos (e ▸ hbc)]
        · rw [if_neg hab] at h1
          rw [if_neg hbc] at h2
          by_cases hba : b.toNat < a.toNat
          · rw [if_pos hba] at h1; exact absurd h1 (by simp)
          · by_cases hcb : c.toNat < b.toNat
            · rw [if_pos hcb] at h2; exact absurd h2 (by simp)
            · rw [if_neg hba] at h1
              rw [if_neg hcb] at h2
              have e1 : a.toNat = b.toNat := le_antisymm (le_of_not_lt hba) (le_of_not_lt hab)
              have e2 : b.toNat = c.toNat := le_antisymm (le_of_not_lt hcb) (le_of_not_lt hbc)
              have hac : ¬ a.toNat < c.toNat := by rw [e1, e2]; exact lt_irrefl _
              have hca : ¬ c.toNat < a.toNat := by rw [e1, e2]; exact lt_irrefl _
              rw [if_neg hac, if_neg hca]
              exact ih bs cs h1 h2

instance : IsTotal String pyLe := ⟨fun a b => lexLe_total a.toList b.toList⟩

instance : IsTrans String pyLe := ⟨fun a b c => lexLe_trans a.toList b.toList c.toList⟩

/-- Modelled from the spec: Python's builtin `sorted` on a list of path
strings — a stable sort by the code-point lexicographic order `pyLe`.
(`sorted` is an external builtin; any stable sort by the same total
preorder produces the same list.) -/
def pySorted (l : List String) : List String := l.insertionSort pyLe

/-! ### `pathlib` path model

A `PyPath` is a parsed `pathlib.PurePosixPath`: whether it is
absolute, and its non-trivial components (empty components and `.`
are dropped by the `Path` constructor).  Components are kept as
character lists. -/

structure PyPath where
  absolute : Bool
  parts : List (List Char)
deriving DecidableEq

/-- Splits a character list on `/`, keeping empty chunks
(the `Path` constructor filters them afterwards). -/
def splitSlashAux : List Char → List Char → List (List Char)
  | [], acc => [acc.reverse]
  | c :: cs, acc =>
      if c = '/' then acc.reverse :: splitSlashAux cs []
      else splitSlashAux cs (c :: acc)

/-- Model of `pathlib.Path(s)` for a POSIX path string: records whether the path
is absolute and keeps the components other than `""` and `"."`. -/
def parsePath (s : String) : PyPath :=
  let cs := s.toList
  { absolute := match cs with | '/' :: _ => true | _ => false
    parts := (splitSlashAux cs []).filter (fun g => !(g.isEmpty) && !(g == ['.'])) }

/-- Python `Path.name`: the final component, or empty for paths such as
`"."`, `""` and `"/"`. -/
def nameChars (p : PyPath) : List Char := (p.parts.getLast?).getD []

/-- Python `PurePath.suffix` of a final component `cs`: the substring from the
last dot, provided that dot is neither the first nor the last
character of the component (CPython checks `0 < i < len(name) - 1`). -/
def nameSuffix (cs : List Char) : List Char :=
  let tail := cs.reverse.takeWhile (fun c => c != '.')
  if tail.length = cs.length then []
  else if tail.length = 0 then []
  else if tail.length = cs.length - 1 then []
  else '.' :: tail.reverse

/-- Python `Path.suffix` of a path. -/
def pySuffix (p : PyPath) : List Char := nameSuffix (nameChars p)

/-- The new final component built by `PurePath.with_suffix`: strip the
old suffix (if any) from the name and append the new suffix. -/
def withSuffixName (name suf : List Char) : List Char :=
  name.take (name.length - (nameSuffix name).length) ++ suf

/-- Error classification for the Python exceptions that the converter
can raise or catch. -/
inductive PyErr where
  | fileNotFound
  | permissionDenied
  | valueError
  | other
deriving DecidableEq

/-- Python `PurePath.with_suffix`: raises `ValueError` when the path has an
empty name (e.g. `Path(".")`, `Path("")`, `Path("/")`); otherwise
replaces the final component. -/
def pyWithSuffix (p : PyPath) (suf : List Char) : Except PyErr PyPath :=
  if nameChars p = [] then .error .valueError
  else .ok { absolute := p.absolute
             parts := p.parts.dropLast ++ [withSuffixName (nameChars p) suf] }

/-- Python `Path.parent`: drop the final component (the parent of a partless
path is itself). -/
def pathParent (p : PyPath) : PyPath :=
  if p.parts.isEmpty then p
  else { absolute := p.absolute, parts := p.parts.dropLast }

/-- Joins path components with `/` separators. -/
def joinSlash : List (List Char) → List Char
  | [] => []
  | [x] => x
  | x :: y :: xs => x ++ '/' :: joinSlash (y :: xs)

/-- Python `str(Path)`: the string `"."` for the empty relative path, otherwise the
root marker followed by the components joined with `/`. -/
def pathChars (p : PyPath) : List Char :=
  if p.parts.isEmpty then (if p.absolute then ['/'] else ['.'])
  else (if p.absolute then ['/'] else []) ++ joinSlash p.parts

/-- Python `str(Path)` as a string. -/
def pathStr (p : PyPath) : String := (pathChars p).asString

/-! ### Format Filter (`ImageToPDFConverter.__init__`)

`self.supported_formats` is the fixed extension set; membership is
tested on the lower-cased `Path.suffix`. -/

/-- The `supported_formats` set from `ImageToPDFConverter.__init__`. -/
def SUPPORTED_FORMATS : List (List Char) :=
  [".jpg".toList, ".jpeg".toList, ".png".toList, ".webp".toList,
   ".heic".toList, ".heif".toList, ".bmp".toList, ".tiff".toList, ".tif".toList]

/-- Python `path.suffix.lower()` for a path string. -/
def suffixLower (p : String) : List Char :=
  (pySuffix (parsePath p)).map Char.toLower

/-- The membership test `path.suffix.lower() in self.supported_formats`. -/
def isSupportedPath (p : String) : Bool :=
  SUPPORTED_FORMATS.contains (suffixLower p)

/-! ### Image Locator (`ImageToPDFConverter.find_images`)

Filesystem access is abstracted into a record of the query functions
the locator uses: `is_file`, `is_dir`, `iterdir` (immediate entries of
a directory, as full path strings) and `resolve` (absolute path). -/

structure FileSystem where
  isFile : String → Bool
  isDir : String → Bool
  iterdir : String → List String
  resolve : String → String

/-- The single-path branch of `find_images` (lines 64–72): a directory
contributes its immediate supported file entries, a file contributes
itself when supported, anything else contributes nothing. -/
def findImagesSingle (fs : FileSystem) (p : String) : List String :=
  if fs.isDir p then
    ((fs.iterdir p).filter (fun f => fs.isFile f && isSupportedPath f)).map fs.resolve
  else if fs.isFile p then
    (if isSupportedPath p then [fs.resolve p] else [])
  else []

/-- One item of the list branch of `find_images` (lines 74–82); the
code tests `is_file` before `is_dir` here. -/
def findImagesItem (fs : FileSystem) (p : String) : List String :=
  if fs.isFile p then
    (if isSupportedPath p then [fs.resolve p] else [])
  else if fs.isDir p then
    ((fs.iterdir p).filter (fun f => fs.isFile f && isSupportedPath f)).map fs.resolve
  else []

/-- The method `ImageToPDFConverter.find_images`: accepts a single path or a list
of paths, accumulates matches, and returns `sorted(images)`. -/
def find_images (fs : FileSystem) : String ⊕ List String → List String
  | .inl p => pySorted (findImagesSingle fs p)
  | .inr items => pySorted (items.flatMap (findImagesItem fs))

/-- Modelled from the spec: Python's builtin `set` constructor applied
to a list, i.e. the distinct values.  The set's iteration order is
irrelevant here because `run` immediately sorts the result, and
sorting a list of distinct values by a total order determines the
output uniquely. -/
def pySet (l : List String) : List String := l.dedup

/-- The image-aggregation step of `ImageToPDFConverter.run`
(lines 274–280): a single input is passed to `find_images` directly;
a list of inputs is located path by path and the concatenation is
deduplicated and sorted (`sorted(set(all_images))`). -/
def run_find_images (fs : FileSystem) : String ⊕ List String → List String
  | .inl p => find_images fs (.inl p)
  | .inr ps => pySorted (pySet (ps.flatMap (fun p => find_images fs (.inl p))))

/-! ### Page Normalizer (`convert_to_pdf`, lines 213–222)

A decoded image is its color mode and pixel dimensions.  Decoding
(`Image.open`) is an external collaborator and is abstracted as a
function `String → Except PyErr PILImage`. -/

structure PILImage where
  mode : String
  width : Nat
  height : Nat
deriving DecidableEq

/-- Rounds the rational `a / b` to the nearest natural number
(halves up). -/
def rndDiv (a b : Nat) : Nat := (2 * a + b) / (2 * b)

/-- Modelled from the spec: the external image library's
`img.thumbnail((maxSize, maxSize), LANCZOS)` downscale — preserve the
aspect ratio so that the larger dimension becomes exactly `maxSize`
and the other is the correspondingly scaled value, rounded and kept
at least 1 pixel. -/
def thumbnail (img : PILImage) (maxSize : Nat) : PILImage :=
  if img.height ≤ img.width then
    { img with width := maxSize
               height := max 1 (rndDiv (maxSize * img.height) img.width) }
  else
    { img with width := max 1 (rndDiv (maxSize * img.width) img.height)
               height := maxSize }

/-- The per-image normalization of `convert_to_pdf` (lines 213–222):
convert to RGB when the mode differs, then downscale only when
`max(width, height) > max_size`. -/
def normalizeImage (max_size : Nat) (img : PILImage) : PILImage :=
  let img1 := if img.mode ≠ "RGB" then { img with mode := "RGB" } else img
  if max_size < max img1.width img1.height then thumbnail img1 max_size else img1

/-- The accumulation loop of `convert_to_pdf` (lines 210–222): decode
each path in order, normalize it, and collect the pages; the first
decode error aborts the loop (the exception propagates to the
`except` clauses). -/
def processImages (decode : String → Except PyErr PILImage) (max_size : Nat) :
    List String → Except PyErr (List PILImage)
  | [] => .ok []
  | p :: ps => do
      let img ← decode p
      let rest ← processImages decode max_size ps
      .ok (normalizeImage max_size img :: rest)

/-- Modelled from the spec: the external PDF writer invoked as
`pdf_images[0].save(..., append_images=pdf_images[1:], ...)` — the
first accumulated image becomes the base document and the remaining
images are appended as further pages in order. -/
def savePdf (base : PILImage) (appends : List PILImage) : List PILImage :=
  base :: appends

/-! ### Document Assembler (`ImageToPDFConverter.convert_to_pdf`)

The observable outcome of one call: the returned boolean, the file
written (its path and its page sequence), and the directories created
by `output_path.parent.mkdir(parents=True)`.  The whole call is
wrapped in `Except`: an `Except.error` is an exception that escapes
`convert_to_pdf` to its caller.  The `resolution` float parameter is
passed through to the external writer and affects neither the return
value nor the page sequence, so it is not modelled. -/

structure ConvOutcome where
  retVal : Bool
  written : Option (PyPath × List PILImage)
  dirsMade : List PyPath
deriving DecidableEq

/-- The method `ImageToPDFConverter.convert_to_pdf` (lines 198–250).  The empty
check and the `with_suffix` adjustment run before the `try:` block, so
a `ValueError` from `with_suffix` propagates; every exception raised
inside the loop or the save is caught and turned into `False`. -/
def convert_to_pdf (decode : String → Except PyErr PILImage) (images : List String)
    (output_path : PyPath) (max_size : Nat := 2000) : Except PyErr ConvOutcome :=
  if images.isEmpty then .ok ⟨false, none, []⟩
  else
    match (if (pySuffix output_path).map Char.toLower = ".pdf".toList
           then Except.ok output_path
           else pyWithSuffix output_path ".pdf".toList) with
    | .error e => .error e
    | .ok out =>
        match processImages decode max_size images with
        | .error _ => .ok ⟨false, none, []⟩
        | .ok pdf_images =>
            match pdf_images with
            | [] => .ok ⟨false, none, []⟩
            | first :: rest =>
                .ok ⟨true, some (out, savePdf first rest), [pathParent out]⟩

/-! ### Ordering Validator (`ImageToPDFConverter._get_custom_order`)

The validation core of lines 141–151: parsing and re-prompting are
interactive I/O; one candidate list of integers is either rejected for
its length, rejected because its value set is not `{1..n}`, or applied
by the reindexing comprehension `[images[i - 1] for i in order_numbers]`. -/

/-- Python `range(1, len(images) + 1)` as a list of integers. -/
def pyRange1 (n : Nat) : List Int := List.map (fun k : Nat => (k : Int)) (List.range' 1 n)

/-- Python `set(a) == set(b)`: the two lists hold the same values. -/
def pySetEq (a b : List Int) : Bool :=
  a.all (fun x => b.contains x) && b.all (fun x => a.contains x)

/-- Python list indexing `l[j]`: non-negative indices from the front,
negative indices from the back, `IndexError` (here `none`) outside
`[-len(l), len(l))`. -/
def pyIndex {α : Type} (l : List α) (j : Int) : Option α :=
  if 0 ≤ j ∧ j < (l.length : Int) then l[j.toNat]?
  else if -(l.length : Int) ≤ j ∧ j < 0 then l[(j + l.length).toNat]?
  else none

/-- The comprehension `[images[i - 1] for i in order_numbers]`;
`none` models an `IndexError`. -/
def applyOrder (images : List String) : List Int → Option (List String)
  | [] => some []
  | i :: rest =>
      match pyIndex images (i - 1), applyOrder images rest with
      | some x, some xs => some (x :: xs)
      | _, _ => none

/-- The three validation outcomes of `_get_custom_order`, plus the
(unreachable) `IndexError` case of the reindexing comprehension. -/
inductive OrderOutcome where
  | lengthMismatch
  | notAPermutation
  | indexError
  | ok (ordered : List String)
deriving DecidableEq

/-- The validation-and-apply step of `_get_custom_order`
(lines 143–151): reject on `len(order_numbers) != len(images)`, then
on `set(order_numbers) != set(range(1, len(images) + 1))`, otherwise
apply the reindexing. -/
def getCustomOrder (images : List String) (order_numbers : List Int) : OrderOutcome :=
  if order_numbers.length ≠ images.length then .lengthMismatch
  else if ¬ (pySetEq order_numbers (pyRange1 images.length) = true) then .notAPermutation
  else
    match applyOrder images order_numbers with
    | some l => .ok l
    | none => .indexError

/-! ### Helper lemmas -/

theorem pySorted_perm (l : List String) : (pySorted l).Perm l :=
  List.perm_insertionSort pyLe l

theorem pySorted_sorted (l : List String) : List.Sorted pyLe (pySorted l) :=
  List.sorted_insertionSort pyLe l

theorem processImages_map (decode : String → Except PyErr PILImage)
    (f : String → PILImage) (m : Nat) :
    ∀ images : List String, (∀ p ∈ images, decode p = .ok (f p)) →
      processImages decode m images = .ok (images.map (fun p => normalizeImage m (f p))) := by
  intro images
  induction images with
  | nil => intro _; rfl
  | cons a as ih =>
    intro h
    have ha : decode a = .ok (f a) := h a (List.mem_cons_self a as)
    have has : ∀ p ∈ as, decode p = .ok (f p) := fun p hp => h p (List.mem_cons_of_mem a hp)
    simp only [processImages, ha, ih has, List.map_cons, bind, Except.bind]

theorem processImages_ok_forall (decode : String → Except PyErr PILImage) (m : Nat) :
    ∀ (images : List String) (pages : List PILImage),
      processImages decode m images = .ok pages →
      ∀ p ∈ images, ∃ i, decode p = .ok i := by
  intro images
  induction images with
  | nil => intro pages _ p hp; exact absurd hp (List.not_mem_nil p)
  | cons a as ih =>
    intro pages h p hp
    rcases hda : decode a with e | img
    · simp only [processImages, hda, bind, Except.bind] at h
      exact Except.noConfusion h
    · rcases List.mem_cons.mp hp with rfl | hpas
      · exact ⟨img, hda⟩
      · simp only [processImages, hda, bind, Except.bind] at h
        rcases hrest : processImages decode m as with e | rest
        · rw [hrest] at h; simp at h
        · exact ih rest hrest p hpas

theorem processImages_error (decode : String → Except PyErr PILImage) (m : Nat)
    (images : List String) (hfail : ∃ p ∈ images, ∃ e, decode p = .error e) :
    ∃ e, processImages decode m images = .error e := by
  rcases hres : processImages decode m images with e | pages
  · exact ⟨e, rfl⟩
  · rcases hfail with ⟨p, hp, e, hde⟩
    rcases processImages_ok_forall decode m images pages hres p hp with ⟨i, hi⟩
    rw [hde] at hi
    exact absurd hi (by simp)

theorem outPathChoice_ok (out : PyPath) (hname : nameChars out ≠ []) :
    ∃ outP : PyPath,
      (if (pySuffix out).map Char.toLower = ".pdf".toList then Except.ok out
       else pyWithSuffix out ".pdf".toList) = .ok outP := by
  by_cases hc : (pySuffix out).map Char.toLower = ".pdf".toList
  · exact ⟨out, by rw [if_pos hc]⟩
  · exact ⟨⟨out.absolute, out.parts.dropLast ++ [withSuffixName (nameChars out) ".pdf".toList]⟩,
      by rw [if_neg hc]; unfold pyWithSuffix; rw [if_neg hname]⟩

theorem convert_to_pdf_eq (decode : String → Except PyErr PILImage)
    (images : List String) (out outP : PyPath) (m : Nat) (hne : images ≠ [])
    (hout : (if (pySuffix out).map Char.toLower = ".pdf".toList then Except.ok out
             else pyWithSuffix out ".pdf".toList) = .ok outP) :
    convert_to_pdf decode images out m =
      match processImages decode m images with
      | .error _ => .ok ⟨false, none, []⟩
      | .ok [] => .ok ⟨false, none, []⟩
      | .ok (first :: rest) => .ok ⟨true, some (outP, savePdf first rest), [pathParent outP]⟩ := by
  unfold convert_to_pdf
  rw [if_neg (by simpa using hne), hout]
  rcases hp : processImages decode m images with e | pages
  · simp only [hp]
  · rcases pages with _ | ⟨first, rest⟩ <;> simp only [hp]

theorem nameSuffix_length_lt (cs : List Char) (h : cs ≠ []) :
    (nameSuffix cs).length < cs.length := by
  have hlen : 0 < cs.length := List.length_pos.mpr h
  have htw : (cs.reverse.takeWhile (fun c => c != '.')).length ≤ cs.length := by
    have := (List.takeWhile_sublist (l := cs.reverse) (fun c => c != '.')).length_le
    simpa using this
  simp only [nameSuffix]
  split_ifs with h1 h2 h3
  · simpa using hlen
  · simpa using hlen
  · simpa using hlen
  · simp only [List.length_cons, List.length_reverse]
    omega

theorem withSuffixName_stem_ne (name : List Char) (h : name ≠ []) :
    name.take (name.length - (nameSuffix name).length) ≠ [] := by
  have h1 : (nameSuffix name).length < name.length := nameSuffix_length_lt name h
  rw [Ne, List.take_eq_nil_iff]
  push_neg
  exact ⟨by omega, h⟩

theorem nameSuffix_append_pdf (stem : List Char) (h : stem ≠ []) :
    nameSuffix (stem ++ ['.', 'p', 'd', 'f']) = ['.', 'p', 'd', 'f'] := by
  have hst : 0 < stem.length := List.length_pos.mpr h
  have htail : ((stem ++ ['.', 'p', 'd', 'f']).reverse.takeWhile (fun c => c != '.'))
      = ['f', 'd', 'p'] := by
    rw [List.reverse_append]
    simp [List.takeWhile_cons]
  simp only [nameSuffix, htail, List.length_cons, List.length_nil, List.length_append]
  split_ifs with h1 h2 h3
  · exfalso; omega
  · exact h2.elim
  · exfalso; omega
  · rfl

/-- When the final component has no extension, `with_suffix` appends:
the new name is the old name followed by the suffix. -/
theorem withSuffixName_of_no_suffix (name suf : List Char) (h : nameSuffix name = []) :
    withSuffixName name suf = name ++ suf := by
  unfold withSuffixName
  rw [h]
  simp

theorem joinSlash_cons_ne (x : List Char) (l : List (List Char)) (h : l ≠ []) :
    joinSlash (x :: l) = x ++ '/' :: joinSlash l := by
  cases l with
  | nil => exact absurd rfl h
  | cons y ys => rfl

theorem joinSlash_concat_append (xs : List (List Char)) (y z : List Char) :
    joinSlash (xs ++ [y ++ z]) = joinSlash (xs ++ [y]) ++ z := by
  induction xs with
  | nil => rfl
  | cons x xs ih =>
    rw [List.cons_append, List.cons_append,
        joinSlash_cons_ne x (xs ++ [y ++ z]) (by simp),
        joinSlash_cons_ne x (xs ++ [y]) (by simp), ih]
    simp

theorem nameChars_parts_ne (p : PyPath) (h : nameChars p ≠ []) : p.parts ≠ [] := by
  intro hc
  apply h
  unfold nameChars
  rw [hc]
  rfl

theorem pyRange1_length (n : Nat) : (pyRange1 n).length = n := by
  rw [pyRange1, List.length_map, List.length_range']

theorem pyRange1_nodup (n : Nat) : (pyRange1 n).Nodup := by
  unfold pyRange1
  refine List.Nodup.map ?_ ?_
  · intro a b hab
    exact Nat.cast_injective hab
  · exact List.nodup_range' 1 n 1 Nat.one_pos

theorem mem_pyRange1 (n : Nat) (i : Int) : i ∈ pyRange1 n ↔ 1 ≤ i ∧ i ≤ (n : Int) := by
  unfold pyRange1
  simp only [List.mem_map, List.mem_range'_1]
  constructor
  · rintro ⟨k, ⟨hk1, hk2⟩, rfl⟩
    constructor <;> omega
  · intro ⟨h1, h2⟩
    refine ⟨i.toNat, ⟨by omega, by omega⟩, by omega⟩

theorem pySetEq_iff (a b : List Int) :
    pySetEq a b = true ↔ ((∀ x ∈ a, x ∈ b) ∧ (∀ x ∈ b, x ∈ a)) := by
  simp [pySetEq, List.all_eq_true, List.contains, List.elem_iff]

theorem pySetEq_iff_perm (order : List Int) (n : Nat) (hlen : order.length = n) :
    pySetEq order (pyRange1 n) = true ↔ order.Perm (pyRange1 n) := by
  constructor
  · intro h
    rcases (pySetEq_iff _ _).mp h with ⟨h1, h2⟩
    have hft : order.toFinset = (pyRange1 n).toFinset := by
      ext x
      simp only [List.mem_toFinset]
      exact ⟨fun hx => h1 x hx, fun hx => h2 x hx⟩
    have hnr : (pyRange1 n).Nodup := pyRange1_nodup n
    have hcard : order.dedup.length = n := by
      rw [← List.card_toFinset, hft, List.toFinset_card_of_nodup hnr, pyRange1_length]
    have hdedup : order.dedup = order :=
      (List.dedup_sublist order).eq_of_length (by rw [hcard, hlen])
    have hnodup : order.Nodup := hdedup ▸ List.nodup_dedup order
    exact List.perm_of_nodup_nodup_toFinset_eq hnodup hnr hft
  · intro h
    apply (pySetEq_iff _ _).mpr
    exact ⟨fun x hx => h.mem_iff.mp hx, fun x hx => h.mem_iff.mpr hx⟩

theorem applyOrder_spec (images : List String) :
    ∀ order : List Int, (∀ i ∈ order, 1 ≤ i ∧ i ≤ (images.length : Int)) →
      ∃ l, applyOrder images order = some l ∧ l.length = order.length ∧
        ∀ (j : Nat) (k : Int), order[j]? = some k → l[j]? = images[(k - 1).toNat]? := by
  intro order
  induction order with
  | nil =>
    intro _
    exact ⟨[], rfl, rfl, by intro j k hk; simp at hk⟩
  | cons i rest ih =>
    intro h
    have hi := h i (List.mem_cons_self i rest)
    have hrest := fun x hx => h x (List.mem_cons_of_mem i hx)
    rcases ih hrest with ⟨l, hl, hlen, hget⟩
    have hlt : (i - 1).toNat < images.length := by omega
    have hidx : pyIndex images (i - 1) = images[(i - 1).toNat]? := by
      unfold pyIndex
      rw [if_pos ⟨by omega, by omega⟩]
    have hx : images[(i - 1).toNat]? = some images[(i - 1).toNat] :=
      List.getElem?_eq_getElem hlt
    refine ⟨images[(i - 1).toNat] :: l, ?_, by simp [hlen], ?_⟩
    · unfold applyOrder
      rw [hidx, hx, hl]
    · intro j k hk
      cases j with
      | zero =>
        simp only [List.getElem?_cons_zero, Option.some.injEq] at hk
        subst hk
        simp only [List.getElem?_cons_zero]
        exact hx.symm
      | succ j =>
        simp only [List.getElem?_cons_succ] at hk ⊢
        exact hget j k hk

theorem rndDiv_le (m s l : Nat) (hl : 0 < l) (hsl : s ≤ l) : rndDiv (m * s) l ≤ m := by
  unfold rndDiv
  have hlt : 2 * (m * s) + l < (m + 1) * (2 * l) := by nlinarith
  have h2 : 0 < 2 * l := by omega
  have := (Nat.div_lt_iff_lt_mul h2).mpr hlt
  omega

theorem thumbnail_max_eq (img : PILImage) (m : Nat) (hm : 0 < m)
    (hbig : m < max img.width img.height) :
    max (thumbnail img m).width (thumbnail img m).height = m := by
  unfold thumbnail
  by_cases hwh : img.height ≤ img.width
  · rw [if_pos hwh]
    have hw : 0 < img.width := by omega
    have hle : rndDiv (m * img.height) img.width ≤ m :=
      rndDiv_le m img.height img.width hw hwh
    exact max_eq_left (max_le hm hle)
  · rw [if_neg hwh]
    have hh : 0 < img.height := by omega
    have hle : rndDiv (m * img.width) img.height ≤ m :=
      rndDiv_le m img.width img.height hh (by omega)
    exact max_eq_right (max_le hm hle)

/-! ### The claims -/

/-- Claim C7: for the empty list of images, `convert_to_pdf` fails
immediately — it returns `False` before any filesystem action, writes
no file and creates no directories (and raises no exception). -/
theorem C7_empty_images_no_action (decode : String → Except PyErr PILImage)
    (out : PyPath) (m : Nat) :
    convert_to_pdf decode [] out m = .ok ⟨false, none, []⟩ := rfl

/-- A filesystem with a directory `d` that contains `d/a.jpg`,
overlapping with the direct input `d/a.jpg`. -/
def overlapFS : FileSystem :=
  { isFile := fun p => p == "d/a.jpg"
    isDir := fun p => p == "d"
    iterdir := fun p => if p == "d" then ["d/a.jpg"] else []
    resolve := fun p => "/abs/" ++ p }

/-- Claim C2 (counterexample): `find_images` itself does not
deduplicate — on the overlapping input list `["d", "d/a.jpg"]`, where
`d` is a directory containing `d/a.jpg`, it returns the same resolved
path twice. -/
theorem C2_counterexample :
    ¬ (find_images overlapFS (Sum.inr ["d", "d/a.jpg"])).Nodup ∧
      find_images overlapFS (Sum.inr ["d", "d/a.jpg"])
        = ["/abs/d/a.jpg", "/abs/d/a.jpg"] := by
  decide

/-- Claim C2 (amended): deduplication happens in `run`, not in
`find_images`: the image list that `run` aggregates from a list of
input paths (`sorted(set(all_images))`) has no duplicate entries by
path equality, for every filesystem and every input list. -/
theorem C2_run_no_duplicates (fs : FileSystem) (inputs : List String) :
    (run_find_images fs (Sum.inr inputs)).Nodup := by
  unfold run_find_images
  exact (pySorted_perm _).symm.nodup (List.nodup_dedup _)

/-- Claim C4: for a permutation `p` of `{1..N}` over `N` images,
`applyOrder` succeeds and produces a list of length `N` whose `j`-th
element is `images[p[j] - 1]` — a pure reindexing with no reordering
beyond the requested one. -/
theorem C4_apply_order_pure_reindexing (images : List String) (order : List Int)
    (hp : order.Perm (pyRange1 images.length)) :
    ∃ l, applyOrder images order = some l ∧ l.length = images.length ∧
      ∀ (j : Nat) (k : Int), order[j]? = some k → l[j]? = images[(k - 1).toNat]? := by
  have hmem : ∀ i ∈ order, 1 ≤ i ∧ i ≤ (images.length : Int) := fun i hi =>
    (mem_pyRange1 _ i).mp (hp.mem_iff.mp hi)
  rcases applyOrder_spec images order hmem with ⟨l, h1, h2, h3⟩
  exact ⟨l, h1, by rw [h2, hp.length_eq, pyRange1_length], h3⟩

/-- Claim C4 (witness): the theorem applied to three images and the
permutation `3 1 2`. -/
theorem C4_witness :
    (([3, 1, 2] : List Int).Perm (pyRange1 (["a", "b", "c"] : List String).length))
    ∧ (∃ l, applyOrder ["a", "b", "c"] [3, 1, 2] = some l ∧
        l.length = (["a", "b", "c"] : List String).length ∧
        ∀ (j : Nat) (k : Int), ([3, 1, 2] : List Int)[j]? = some k →
          l[j]? = (["a", "b", "c"] : List String)[(k - 1).toNat]?) :=
  ⟨by decide, C4_apply_order_pure_reindexing ["a", "b", "c"] [3, 1, 2] (by decide)⟩

/-- Claim C5: the validation of `_get_custom_order` is a trichotomy —
a candidate of the wrong length is rejected as a length mismatch; a
candidate of the right length whose values are not exactly a
permutation of `{1..N}` (a repeat or an out-of-range value) is
rejected as not-a-permutation; a candidate passing both checks, and
only such a candidate, is applied; and the reindexing itself never
fails with an index error. -/
theorem C5_validation_trichotomy (images : List String) (order_numbers : List Int) :
    (getCustomOrder images order_numbers = .lengthMismatch ↔
      order_numbers.length ≠ images.length)
    ∧ (getCustomOrder images order_numbers = .notAPermutation ↔
      (order_numbers.length = images.length ∧
        ¬ order_numbers.Perm (pyRange1 images.length)))
    ∧ ((∃ l, getCustomOrder images order_numbers = .ok l) ↔
      (order_numbers.length = images.length ∧
        order_numbers.Perm (pyRange1 images.length)))
    ∧ getCustomOrder images order_numbers ≠ .indexError := by
  by_cases hlen : order_numbers.length = images.length
  · have hiff := pySetEq_iff_perm order_numbers images.length hlen
    by_cases hperm : order_numbers.Perm (pyRange1 images.length)
    · have hmem : ∀ i ∈ order_numbers, 1 ≤ i ∧ i ≤ (images.length : Int) := fun i hi =>
        (mem_pyRange1 _ i).mp (hperm.mem_iff.mp hi)
      rcases applyOrder_spec images order_numbers hmem with ⟨l, hl, _, _⟩
      have hresult : getCustomOrder images order_numbers = .ok l := by
        unfold getCustomOrder
        rw [if_neg (fun hc => hc hlen), if_neg (fun hc => hc (hiff.mpr hperm)), hl]
      refine ⟨?_, ?_, ?_, ?_⟩ <;> simp [hresult, hlen, hperm]
    · have hresult : getCustomOrder images order_numbers = .notAPermutation := by
        unfold getCustomOrder
        rw [if_neg (fun hc => hc hlen), if_pos (fun hc => hperm (hiff.mp hc))]
      refine ⟨?_, ?_, ?_, ?_⟩ <;> simp [hresult, hlen, hperm]
  · have hresult : getCustomOrder images order_numbers = .lengthMismatch := by
      unfold getCustomOrder
      rw [if_pos hlen]
    refine ⟨?_, ?_, ?_, ?_⟩ <;> simp [hresult, hlen]

/-- Claim C9: the Page Normalizer caps dimensions — when
`max(width, height) > max_size` the image is downscaled so that its
larger dimension becomes exactly `max_size`; when both dimensions are
within the bound the dimensions are unchanged. -/
theorem C9_normalizer_dimension_cap (img : PILImage) (m : Nat) (hm : 0 < m) :
    (m < max img.width img.height →
      max (normalizeImage m img).width (normalizeImage m img).height = m)
    ∧ (max img.width img.height ≤ m →
      (normalizeImage m img).width = img.width ∧
        (normalizeImage m img).height = img.height) := by
  have hdims :
      ((if img.mode ≠ "RGB" then { img with mode := "RGB" } else img) : PILImage).width
        = img.width ∧
      ((if img.mode ≠ "RGB" then { img with mode := "RGB" } else img) : PILImage).height
        = img.height := by
    split_ifs <;> exact ⟨rfl, rfl⟩
  constructor
  · intro hbig
    simp only [normalizeImage]
    rw [if_pos (by rw [hdims.1, hdims.2]; exact hbig)]
    exact thumbnail_max_eq _ m hm (by rw [hdims.1, hdims.2]; exact hbig)
  · intro hsmall
    simp only [normalizeImage]
    rw [if_neg (by rw [hdims.1, hdims.2]; omega)]
    exact hdims

/-- Claim C9 (witness): the theorem applied at the default bound 2000
to a 4000×1000 image. -/
theorem C9_witness :
    (0 < 2000)
    ∧ ((2000 < max (PILImage.mk "RGB" 4000 1000).width (PILImage.mk "RGB" 4000 1000).height →
        max (normalizeImage 2000 (PILImage.mk "RGB" 4000 1000)).width
          (normalizeImage 2000 (PILImage.mk "RGB" 4000 1000)).height = 2000)
      ∧ (max (PILImage.mk "RGB" 4000 1000).width (PILImage.mk "RGB" 4000 1000).height ≤ 2000 →
        (normalizeImage 2000 (PILImage.mk "RGB" 4000 1000)).width
            = (PILImage.mk "RGB" 4000 1000).width ∧
          (normalizeImage 2000 (PILImage.mk "RGB" 4000 1000)).height
            = (PILImage.mk "RGB" 4000 1000).height)) :=
  ⟨by decide, C9_normalizer_dimension_cap (PILImage.mk "RGB" 4000 1000) 2000 (by decide)⟩

/-- Claim C1: when every image decodes, `convert_to_pdf` writes one
PDF whose pages are exactly the normalized images of the input list,
in the same order — first element the base page, the rest appended in
order, with no reordering, duplication or omission. -/
theorem C1_pages_match_input_order (decode : String → Except PyErr PILImage)
    (f : String → PILImage) (images : List String) (out : PyPath) (m : Nat)
    (hne : images ≠ []) (hname : nameChars out ≠ [])
    (hdec : ∀ p ∈ images, decode p = .ok (f p)) :
    ∃ outP : PyPath,
      convert_to_pdf decode images out m =
        .ok ⟨true, some (outP, images.map (fun p => normalizeImage m (f p))),
             [pathParent outP]⟩ := by
  rcases outPathChoice_ok out hname with ⟨outP, hout⟩
  refine ⟨outP, ?_⟩
  rw [convert_to_pdf_eq decode images out outP m hne hout,
      processImages_map decode f m images hdec]
  cases images with
  | nil => exact absurd rfl hne
  | cons a as => rfl

/-- Claim C1 (witness): the theorem applied to two images under a
constant decoder. -/
theorem C1_witness :
    ((["a.jpg", "b.png"] : List String) ≠ [])
    ∧ nameChars (parsePath "out.pdf") ≠ []
    ∧ (∀ p ∈ (["a.jpg", "b.png"] : List String),
        (fun _ : String => (Except.ok (PILImage.mk "RGB" 8 6) : Except PyErr PILImage)) p
          = .ok ((fun _ : String => PILImage.mk "RGB" 8 6) p))
    ∧ (∃ outP : PyPath,
        convert_to_pdf (fun _ => .ok (PILImage.mk "RGB" 8 6)) ["a.jpg", "b.png"]
            (parsePath "out.pdf") 2000 =
          .ok ⟨true, some (outP, (["a.jpg", "b.png"] : List String).map
                (fun p => normalizeImage 2000 ((fun _ : String => PILImage.mk "RGB" 8 6) p))),
               [pathParent outP]⟩) :=
  ⟨by decide, by decide, fun p _ => rfl,
    C1_pages_match_input_order (fun _ => .ok (PILImage.mk "RGB" 8 6))
      (fun _ => PILImage.mk "RGB" 8 6) ["a.jpg", "b.png"] (parsePath "out.pdf") 2000
      (by decide) (by decide) (fun p _ => rfl)⟩

theorem asString_append_pdf (l : List Char) :
    (l ++ ['.', 'p', 'd', 'f']).asString = l.asString ++ ".pdf" := rfl

theorem pathChars_parts_ne (p : PyPath) (h : p.parts ≠ []) :
    pathChars p = (if p.absolute then ['/'] else []) ++ joinSlash p.parts := by
  unfold pathChars
  rw [if_neg (by simpa using h)]

/-- Claim C3: for an output path whose extension is not `.pdf`
(case-insensitively), the conversion succeeds (one decodable image)
and the file is written at an adjusted path whose extension is `.pdf`;
when the given path had no extension at all, that adjusted path is
exactly the given path with `.pdf` appended. -/
theorem C3_output_gets_pdf_extension (decode : String → Except PyErr PILImage)
    (img : PILImage) (p : String) (out : PyPath) (m : Nat)
    (hd : decode p = .ok img) (hname : nameChars out ≠ [])
    (hs : (pySuffix out).map Char.toLower ≠ ".pdf".toList) :
    ∃ outP pages,
      convert_to_pdf decode [p] out m = .ok ⟨true, some (outP, pages), [pathParent outP]⟩
      ∧ pySuffix outP = ".pdf".toList
      ∧ (pySuffix out = [] → pathStr outP = pathStr out ++ ".pdf") := by
  have hout : (if (pySuffix out).map Char.toLower = ".pdf".toList then Except.ok out
              else pyWithSuffix out ".pdf".toList) =
      .ok ⟨out.absolute,
           out.parts.dropLast ++ [withSuffixName (nameChars out) ".pdf".toList]⟩ := by
    rw [if_neg hs]
    unfold pyWithSuffix
    rw [if_neg hname]
  refine ⟨⟨out.absolute, out.parts.dropLast ++ [withSuffixName (nameChars out) ".pdf".toList]⟩,
    [normalizeImage m img], ?_, ?_, ?_⟩
  · rw [convert_to_pdf_eq decode [p] out _ m (by simp) hout,
        processImages_map decode (fun _ => img) m [p]
          (by intro q hq; simp only [List.mem_singleton] at hq; subst hq; exact hd)]
    rfl
  · show nameSuffix (nameChars _) = _
    have hnameP : nameChars
        ⟨out.absolute, out.parts.dropLast ++ [withSuffixName (nameChars out) ".pdf".toList]⟩
        = withSuffixName (nameChars out) ".pdf".toList := by
      unfold nameChars
      simp [List.getLast?_concat]
    rw [hnameP]
    exact nameSuffix_append_pdf _ (withSuffixName_stem_ne _ hname)
  · intro hnosuf
    have hwsn : withSuffixName (nameChars out) ".pdf".toList
        = nameChars out ++ ['.', 'p', 'd', 'f'] :=
      withSuffixName_of_no_suffix (nameChars out) _ hnosuf
    have hparts : out.parts ≠ [] := nameChars_parts_ne out hname
    have hlast : out.parts.getLast hparts = nameChars out := by
      unfold nameChars
      rw [List.getLast?_eq_getLast out.parts hparts]
      rfl
    have hsplit : out.parts.dropLast ++ [nameChars out] = out.parts := by
      rw [← hlast]
      exact List.dropLast_append_getLast hparts
    have hchars : pathChars
        ⟨out.absolute, out.parts.dropLast ++ [withSuffixName (nameChars out) ".pdf".toList]⟩
        = pathChars out ++ ['.', 'p', 'd', 'f'] := by
      rw [pathChars_parts_ne
            ⟨out.absolute, out.parts.dropLast ++ [withSuffixName (nameChars out) ".pdf".toList]⟩
            (by simp),
          pathChars_parts_ne out hparts, hwsn, joinSlash_concat_append, hsplit,
          List.append_assoc]
    unfold pathStr
    rw [hchars]
    exact asString_append_pdf (pathChars out)

/-- Claim C3 (witness): the theorem applied to a single image and the
extensionless output path `folder/out`. -/
theorem C3_witness :
    ((fun _ : String => (Except.ok (PILImage.mk "RGB" 8 6) : Except PyErr PILImage)) "a.jpg"
        = .ok (PILImage.mk "RGB" 8 6))
    ∧ nameChars (parsePath "folder/out") ≠ []
    ∧ (pySuffix (parsePath "folder/out")).map Char.toLower ≠ ".pdf".toList
    ∧ (∃ outP pages,
        convert_to_pdf (fun _ => .ok (PILImage.mk "RGB" 8 6)) ["a.jpg"]
            (parsePath "folder/out") 2000
          = .ok ⟨true, some (outP, pages), [pathParent outP]⟩
        ∧ pySuffix outP = ".pdf".toList
        ∧ (pySuffix (parsePath "folder/out") = [] →
            pathStr outP = pathStr (parsePath "folder/out") ++ ".pdf")) :=
  ⟨rfl, by decide, by decide,
    C3_output_gets_pdf_extension (fun _ => .ok (PILImage.mk "RGB" 8 6))
      (PILImage.mk "RGB" 8 6) "a.jpg" (parsePath "folder/out") 2000
      rfl (by decide) (by decide)⟩

/-- Claim C6: a decode failure anywhere in the list aborts the whole
conversion — the call returns `False` and writes nothing — and a file
is only ever written when every image in the list decoded
successfully, so a mid-list failure never leaves a partial file. -/
theorem C6_abort_on_decode_failure (decode : String → Except PyErr PILImage)
    (images : List String) (out : PyPath) (m : Nat) (hname : nameChars out ≠ []) :
    ((∃ p ∈ images, ∃ e, decode p = .error e) →
      convert_to_pdf decode images out m = .ok ⟨false, none, []⟩)
    ∧ (∀ r, convert_to_pdf decode images out m = .ok r → r.written ≠ none →
      ∀ p ∈ images, ∃ i, decode p = .ok i) := by
  rcases outPathChoice_ok out hname with ⟨outP, hout⟩
  cases images with
  | nil =>
    constructor
    · rintro ⟨p, hp, _⟩
      exact absurd hp (List.not_mem_nil p)
    · intro r _ _ p hp
      exact absurd hp (List.not_mem_nil p)
  | cons a as =>
    have heq := convert_to_pdf_eq decode (a :: as) out outP m (by simp) hout
    constructor
    · intro hfail
      rcases processImages_error decode m (a :: as) hfail with ⟨e, he⟩
      rw [heq, he]
    · intro r hr hw p hp
      rw [heq] at hr
      rcases hproc : processImages decode m (a :: as) with e | pages
      · rw [hproc] at hr
        injection hr with h2
        rw [← h2] at hw
        exact absurd rfl hw
      · rw [hproc] at hr
        cases pages with
        | nil =>
          injection hr with h2
          rw [← h2] at hw
          exact absurd rfl hw
        | cons first rest =>
          exact processImages_ok_forall decode m (a :: as) (first :: rest) hproc p hp

/-- A decoder that fails on exactly one path, for the C6 witness. -/
def decodeFails : String → Except PyErr PILImage :=
  fun p => if p == "bad.jpg" then .error .fileNotFound else .ok (PILImage.mk "RGB" 10 10)

/-- Claim C6 (witness): the theorem applied to a two-image list whose
second image fails to decode. -/
theorem C6_witness :
    nameChars (parsePath "out.pdf") ≠ []
    ∧ (((∃ p ∈ (["a.jpg", "bad.jpg"] : List String), ∃ e, decodeFails p = .error e) →
        convert_to_pdf decodeFails ["a.jpg", "bad.jpg"] (parsePath "out.pdf") 2000
          = .ok ⟨false, none, []⟩)
      ∧ (∀ r, convert_to_pdf decodeFails ["a.jpg", "bad.jpg"] (parsePath "out.pdf") 2000
            = .ok r → r.written ≠ none →
          ∀ p ∈ (["a.jpg", "bad.jpg"] : List String), ∃ i, decodeFails p = .ok i)) :=
  ⟨by decide,
    C6_abort_on_decode_failure decodeFails ["a.jpg", "bad.jpg"] (parsePath "out.pdf") 2000
      (by decide)⟩

/-- Claim C8: locating a directory returns exactly the resolved paths
of its immediate supported file entries (a permutation of that filter,
hence exactly `k` of them), lexicographically sorted and without
duplicates, and every returned path comes from an immediate entry —
no recursion into subdirectories. -/
theorem C8_locator_directory_contract (fs : FileSystem) (D : String)
    (hD : fs.isDir D = true)
    (hnd : ((fs.iterdir D).map fs.resolve).Nodup) :
    (find_images fs (Sum.inl D)).Perm
        (((fs.iterdir D).filter (fun f => fs.isFile f && isSupportedPath f)).map fs.resolve)
    ∧ List.Sorted pyLe (find_images fs (Sum.inl D))
    ∧ (find_images fs (Sum.inl D)).Nodup
    ∧ (find_images fs (Sum.inl D)).length
        = ((fs.iterdir D).filter (fun f => fs.isFile f && isSupportedPath f)).length
    ∧ (∀ x ∈ find_images fs (Sum.inl D), ∃ e ∈ fs.iterdir D, x = fs.resolve e) := by
  have hsingle : findImagesSingle fs D
      = ((fs.iterdir D).filter (fun f => fs.isFile f && isSupportedPath f)).map fs.resolve := by
    unfold findImagesSingle
    rw [if_pos hD]
  have hperm : (find_images fs (Sum.inl D)).Perm
      (((fs.iterdir D).filter (fun f => fs.isFile f && isSupportedPath f)).map fs.resolve) := by
    show (pySorted (findImagesSingle fs D)).Perm _
    rw [hsingle]
    exact pySorted_perm _
  have hnodup2 : ((((fs.iterdir D).filter
      (fun f => fs.isFile f && isSupportedPath f))).map fs.resolve).Nodup :=
    ((List.filter_sublist _).map fs.resolve).nodup hnd
  refine ⟨hperm, pySorted_sorted _, hperm.symm.nodup hnodup2,
    by rw [hperm.length_eq, List.length_map], ?_⟩
  intro x hx
  rcases List.mem_map.mp (hperm.mem_iff.mp hx) with ⟨e, he, hres⟩
  exact ⟨e, (List.mem_filter.mp he).1, hres.symm⟩

/-- A directory `d` with two supported files, one unsupported file and
one subdirectory entry, for the C8 witness. -/
def demoFS : FileSystem :=
  { isFile := fun p => p == "d/b.PNG" || p == "d/notes.txt" || p == "d/a.jpg"
    isDir := fun p => p == "d"
    iterdir := fun p => if p == "d" then ["d/b.PNG", "d/notes.txt", "d/a.jpg", "d/sub"] else []
    resolve := fun p => "/r/" ++ p }

/-- Claim C8 (witness): the theorem applied to `demoFS` and its
directory `d`. -/
theorem C8_witness :
    demoFS.isDir "d" = true
    ∧ ((demoFS.iterdir "d").map demoFS.resolve).Nodup
    ∧ ((find_images demoFS (Sum.inl "d")).Perm
        (((demoFS.iterdir "d").filter
            (fun f => demoFS.isFile f && isSupportedPath f)).map demoFS.resolve)
      ∧ List.Sorted pyLe (find_images demoFS (Sum.inl "d"))
      ∧ (find_images demoFS (Sum.inl "d")).Nodup
      ∧ (find_images demoFS (Sum.inl "d")).length
          = ((demoFS.iterdir "d").filter
              (fun f => demoFS.isFile f && isSupportedPath f)).length
      ∧ (∀ x ∈ find_images demoFS (Sum.inl "d"),
          ∃ e ∈ demoFS.iterdir "d", x = demoFS.resolve e)) :=
  ⟨rfl, by decide, C8_locator_directory_contract demoFS "d" rfl (by decide)⟩

/-- A decoder that always succeeds, for the C10 counterexample. -/
def decodeConst : String → Except PyErr PILImage :=
  fun _ => .ok (PILImage.mk "RGB" 10 10)

/-- Claim C10 (counterexample): `convert_to_pdf` can propagate an
exception — with a non-empty image list and the output path `"."`
(whose `Path` name is empty), the `with_suffix` call that runs before
the `try:` block raises `ValueError` to the caller instead of
returning a boolean. -/
theorem C10_counterexample :
    convert_to_pdf decodeConst ["a.jpg"] (parsePath ".") 2000 = .error .valueError := rfl

/-- Claim C10 (amended): for every output path whose final `Path`
component is non-empty, `convert_to_pdf` catches every failure and
returns a boolean result; only an output path with an empty name
(such as `"."`, `""` or `"/"`) makes the pre-`try` `with_suffix` call
raise `ValueError` to the caller. -/
theorem C10_no_exception_for_named_output (decode : String → Except PyErr PILImage)
    (images : List String) (out : PyPath) (m : Nat) (hname : nameChars out ≠ []) :
    ∃ r, convert_to_pdf decode images out m = .ok r := by
  cases images with
  | nil => exact ⟨⟨false, none, []⟩, rfl⟩
  | cons a as =>
    rcases outPathChoice_ok out hname with ⟨outP, hout⟩
    rw [convert_to_pdf_eq decode (a :: as) out outP m (by simp) hout]
    rcases hres : processImages decode m (a :: as) with e | pages
    · exact ⟨⟨false, none, []⟩, rfl⟩
    · cases pages with
      | nil => exact ⟨⟨false, none, []⟩, rfl⟩
      | cons first rest =>
        exact ⟨⟨true, some (outP, savePdf first rest), [pathParent outP]⟩, rfl⟩

/-- Claim C10 (witness): the amended theorem applied to a decoder that
fails, a non-empty image list and the named output path `out.pdf`. -/
theorem C10_witness :
    nameChars (parsePath "out.pdf") ≠ []
    ∧ (∃ r, convert_to_pdf decodeFails ["bad.jpg"] (parsePath "out.pdf") 2000 = .ok r) :=
  ⟨by decide,
    C10_no_exception_for_named_output decodeFails ["bad.jpg"] (parsePath "out.pdf") 2000
      (by decide)⟩

end ImageToPDF
